import Mathlib

/-!
Verification of the entry-extraction core of `scrape_build.py` (repository
wknd-at/ioe2040).  The Python module fetches one HTML page, extracts
supporter records from it, deduplicates and sorts them, and writes a static
HTML page.  This file gives a shallow embedding of the extraction pipeline
(`normalize_sort_key`, `find_logo_before_h3`, `extract_entries`) and of the
post-extraction effect sequence of `main`, and proves the specification
claims about them.

Modelling conventions:
* An HTML document is a forest of `Node` trees (tag name, attribute
  association list, children).  BeautifulSoup's `next_elements` /
  `previous_elements` iteration order is exactly the pre-order flattening of
  the parse tree, so the per-anchor scans run over `flattenForest`.
* Python `str` operations are modelled character-wise on `List Char`
  (code points), covering Unicode whitespace and the German letters that
  actually occur in the data; `re.sub(r"\s+", " ")`, `str.strip`,
  `str.lower`, `str.upper`, `str.replace` and the one `re.search` pattern
  are each given a direct executable model.
* Python's `sorted` (a stable sort by the `sort` key) is modelled by
  `List.insertionSort`, which is also stable; a stable sort with respect to
  a fixed total preorder on keys is unique as a function, so the two agree.
-/

namespace Scrape

/-- Python whitespace (the characters matched by `str.isspace` and by `\s`
in a Unicode `re` pattern): ASCII control whitespace, space, NEL, NBSP and
the Unicode space separators. -/
def isPySpace (c : Char) : Bool :=
  let n := c.toNat
  (9 ≤ n && n ≤ 13) || n == 28 || n == 29 || n == 30 || n == 31 || n == 32 ||
    n == 133 || n == 160 || n == 5760 || (8192 ≤ n && n ≤ 8202) ||
    n == 8232 || n == 8233 || n == 8239 || n == 8287 || n == 12288

/-- Model of Python `str.strip()` on a character list: drop Python
whitespace from both ends. -/
def pyStripChars (l : List Char) : List Char :=
  ((l.dropWhile isPySpace).reverse.dropWhile isPySpace).reverse

/-- Model of Python `str.strip()`. -/
def pyStrip (s : String) : String :=
  String.mk (pyStripChars s.data)

/-- Replace every occurrence of the single character `c` by the string `r`;
this is Python `s.replace(c, r)` for a one-character pattern (every
`replace` in the source has a one-character pattern). -/
def replaceChar (c : Char) (r : List Char) : List Char → List Char
  | [] => []
  | x :: xs => (if x = c then r else [x]) ++ replaceChar c r xs

/-- Python `s.replace(c, r)` for a one-character pattern `c`. -/
def replace1 (c : Char) (r : String) (s : String) : String :=
  String.mk (replaceChar c r.data s.data)

/-- Replace each maximal run of Python whitespace by a single space; the
flag records whether we are inside a run whose space was already emitted.
This is `re.sub(r"\s+", " ", s)`. -/
def collapseWsAux (inRun : Bool) : List Char → List Char
  | [] => []
  | c :: cs =>
    if isPySpace c then
      if inRun then collapseWsAux true cs else ' ' :: collapseWsAux true cs
    else c :: collapseWsAux false cs

/-- Model of `re.sub(r"\s+", " ", s)`. -/
def collapseWs (s : String) : String :=
  String.mk (collapseWsAux false s.data)

/-- Model of Python `str.lower()` on one character, for the range relevant
to this program: ASCII letters and the German capitals Ä, Ö, Ü. -/
def pyLowerChar (c : Char) : Char :=
  let n := c.toNat
  if 65 ≤ n ∧ n ≤ 90 then Char.ofNat (n + 32)
  else if n = 196 then 'ä'
  else if n = 214 then 'ö'
  else if n = 220 then 'ü'
  else c

/-- Model of Python `str.lower()`. -/
def pyLower (s : String) : String :=
  String.mk (s.data.map pyLowerChar)

/-- Model of Python `str.upper()` on one character, for the range relevant
to this program: ASCII letters, ä, ö, ü, and ß (which uppercases to "SS"). -/
def pyUpperChar (c : Char) : List Char :=
  let n := c.toNat
  if 97 ≤ n ∧ n ≤ 122 then [Char.ofNat (n - 32)]
  else if n = 228 then ['Ä']
  else if n = 246 then ['Ö']
  else if n = 252 then ['Ü']
  else if n = 223 then ['S', 'S']
  else [c]

def pyUpperChars : List Char → List Char
  | [] => []
  | c :: cs => pyUpperChar c ++ pyUpperChars cs

/-- Model of Python `str.upper()`. -/
def pyUpper (s : String) : String :=
  String.mk (pyUpperChars s.data)

/-- Python `s.startswith(pat)`: `pat` is a character-list prefix of `s`. -/
def strStarts (pat s : String) : Bool :=
  pat.data.isPrefixOf s.data

/-- `normalize_sort_key` (scrape_build.py lines 17-25): strip, lowercase,
fold ä→ae, ö→oe, ü→ue, ß→ss, collapse whitespace runs to single spaces. -/
def normalize_sort_key (name : String) : String :=
  let s := pyLower (pyStrip name)
  let s := replace1 'ä' "ae" s
  let s := replace1 'ö' "oe" s
  let s := replace1 'ü' "ue" s
  let s := replace1 'ß' "ss" s
  collapseWs s

/-- The fixed base URL (scrape_build.py line 7). -/
def BASE : String := "https://www.initiativeoesterreich2040.at"

def isSchemeChar (c : Char) : Bool :=
  c.isAlpha || c.isDigit || c = '+' || c = '-' || c = '.'

def schemeRest : List Char → Bool
  | [] => false
  | c :: rest => if c = ':' then true else if isSchemeChar c then schemeRest rest else false

/-- Does the URL begin with a `scheme:` part? -/
def hasScheme (l : List Char) : Bool :=
  match l with
  | c :: rest => c.isAlpha && schemeRest rest
  | [] => false

/-- Model of `urllib.parse.urljoin(base, url)` for the URL shapes that
occur as image sources against the fixed netloc-only base: absolute URLs
(with a scheme) are returned unchanged, protocol-relative `//…` URLs get
the base's `https` scheme, root-relative and plain relative paths are
attached to the base. -/
def urljoin (base url : String) : String :=
  if strStarts "//" url then "https:" ++ url
  else if hasScheme url.data then url
  else if strStarts "/" url then base ++ url
  else base ++ "/" ++ url

/-- A node of the parsed markup tree: a text node (NavigableString) or an
element with tag name, attributes and children. -/
inductive Node where
  | text : String → Node
  | elem : String → List (String × String) → List Node → Node

mutual
/-- Pre-order flattening of a tree: the node itself, then its descendants.
This is exactly BeautifulSoup's document order (`next_element` chains). -/
def flattenNode : Node → List Node
  | .text s => [.text s]
  | .elem t a children => .elem t a children :: flattenForest children
def flattenForest : List Node → List Node
  | [] => []
  | n :: rest => flattenNode n ++ flattenForest rest
end

mutual
/-- All descendant strings of a node in document order (BeautifulSoup's
`Tag.strings`). -/
def nodeStrings : Node → List String
  | .text s => [s]
  | .elem _ _ children => forestStrings children
def forestStrings : List Node → List String
  | [] => []
  | n :: rest => nodeStrings n ++ forestStrings rest
end

/-- `getattr(el, "name", None) == "h3"`. -/
def isH3 : Node → Bool
  | .elem t _ _ => t == "h3"
  | _ => false

/-- First binding of an attribute in the attribute list (`el.get(key)`). -/
def lookupAttr : List (String × String) → String → Option String
  | [], _ => none
  | (k, v) :: rest, key => if k = key then some v else lookupAttr rest key

/-- `h.get_text(" ", strip=True)`: join the individually stripped,
non-empty descendant strings with single spaces. -/
def getTextSpace (n : Node) : String :=
  String.intercalate " " (((nodeStrings n).map pyStrip).filter (fun s => s != ""))

/-- The non-breaking space character `"\xa0"`. -/
def nbspChar : Char := '\xa0'

/-- The `src` of an image element if it is present and truthy
(`el.get("src")` followed by `if src:`), `none` otherwise. -/
def imgSrc : Node → Option String
  | .elem "img" attrs _ =>
    match lookupAttr attrs "src" with
    | some s => if s = "" then none else some s
    | none => none
  | _ => none

/-- `find_logo_before_h3` (scrape_build.py lines 60-72): walk the
`previous_elements` sequence (the reversed pre-order prefix), stop at the
first `h3`, return the first truthy image `src` resolved against `BASE`. -/
def find_logo_before_h3 : List Node → Option String
  | [] => none
  | el :: rest =>
    if isH3 el then none
    else
      match imgSrc el with
      | some src => some (urljoin BASE src)
      | none => find_logo_before_h3 rest

/-- Contribution of one walked node to `texts` (scrape_build.py lines
96-99): a stripped, NBSP-normalized text-node content if non-empty. -/
def textContrib : Node → List String
  | .text s =>
    let t := replace1 nbspChar " " (pyStrip s)
    if t = "" then [] else [t]
  | _ => []

/-- Contribution of one walked node to `link` (scrape_build.py lines
91-94): the stripped `href` of an `a` element when it starts with
`http://` or `https://`. -/
def linkOf : Node → Option String
  | .elem "a" attrs _ =>
    let href := pyStrip ((lookupAttr attrs "href").getD "")
    if strStarts "http://" href || strStarts "https://" href then some href else none
  | _ => none

/-- The forward walk over `h.next_elements` (scrape_build.py lines 87-99):
stop at the first `h3`; collect text fragments in order and the first
qualifying link (first match wins). -/
def collectForward : List Node → List String × Option String
  | [] => ([], none)
  | n :: rest =>
    if isH3 n then ([], none)
    else
      let acc := collectForward rest
      (textContrib n ++ acc.1,
       match linkOf n with
       | some l => some l
       | none => acc.2)

/-- `block_text` (scrape_build.py line 101): join fragments with single
spaces, collapse whitespace, strip. -/
def blockTextOf (texts : List String) : String :=
  pyStrip (collapseWs (String.intercalate " " texts))

/-- `\w` for the character range relevant here (ASCII word characters and
the German letters). -/
def isWordChar (c : Char) : Bool :=
  c.isAlpha || c.isDigit || c = '_' ||
    c.toNat = 228 || c.toNat = 246 || c.toNat = 252 || c.toNat = 223 ||
    c.toNat = 196 || c.toNat = 214 || c.toNat = 220

/-- ASCII lowercasing of a code point, for case-insensitive matching of the
ASCII pattern literals `Branche` and `https?://`. -/
def lowerNat (n : Nat) : Nat :=
  if 65 ≤ n ∧ n ≤ 90 then n + 32 else n

/-- Case-insensitive prefix test of an ASCII pattern. -/
def startsWithCIChars : List Char → List Char → Bool
  | [], _ => true
  | _ :: _, [] => false
  | p :: ps, c :: cs => (lowerNat p.toNat == lowerNat c.toNat) && startsWithCIChars ps cs

/-- Does the list start with `http://` or `https://` (case-insensitive)?
This is the `https?://` part of the lookahead. -/
def urlLookahead (l : List Char) : Bool :=
  startsWithCIChars "http://".data l || startsWithCIChars "https://".data l

/-- The lookahead `(?=(?:\shttps?://)|$)`: end of input, or a whitespace
character followed by `http(s)://`.  (`block_text` never contains a
newline, so `$` is end of input.) -/
def lookaheadOk : List Char → Bool
  | [] => true
  | c :: cs => isPySpace c && urlLookahead cs

/-- The lazy group `(.+?)` followed by the lookahead: the shortest
non-empty newline-free prefix whose remainder satisfies `lookaheadOk`. -/
def captureFrom : List Char → Option (List Char)
  | [] => none
  | c :: cs =>
    if c = '\n' then none
    else if lookaheadOk cs then some [c]
    else
      match captureFrom cs with
      | some t => some (c :: t)
      | none => none

/-- Backtracking of the greedy `\s*` before the group: first try with the
whole whitespace run consumed (`t`), then give back one run character at a
time (`sp` is the reversed run). -/
def backtrackAux : List Char → List Char → Option (List Char)
  | [], t => captureFrom t
  | s :: sp2, t =>
    match captureFrom t with
    | some c => some c
    | none => backtrackAux sp2 (s :: t)

/-- Matching of `\s*:\s*(.+?)(?=(?:\shttps?://)|$)` directly after the
label `Branche`: skip whitespace, require the colon, then run the group
with `\s*` backtracking. -/
def afterLabel (l : List Char) : Option (List Char) :=
  match l.dropWhile isPySpace with
  | ':' :: l2 => backtrackAux (l2.takeWhile isPySpace).reverse (l2.dropWhile isPySpace)
  | _ => none

/-- `re.search` of `\bBranche\s*:\s*(.+?)(?=(?:\shttps?://)|$)` with
`IGNORECASE` (scrape_build.py lines 104-108): try each start position left
to right; a position qualifies when the previous character is not a word
character (`\b`) and the label matches case-insensitively. -/
def brancheSearch : Option Char → List Char → Option (List Char)
  | _, [] => none
  | prev, c :: cs =>
    if (match prev with | none => true | some p => !isWordChar p) &&
        startsWithCIChars "branche".data (c :: cs) then
      match afterLabel ((c :: cs).drop 7) with
      | some cap => some cap
      | none => brancheSearch (some c) cs
    else brancheSearch (some c) cs

/-- `branche = m.group(1).strip() or None` on top of the regex search
(scrape_build.py lines 103-110). -/
def brancheOf (blockText : String) : Option String :=
  match brancheSearch none blockText.data with
  | none => none
  | some cap =>
    if pyStrip (String.mk cap) = "" then none else some (pyStrip (String.mk cap))

/-- Does the list contain, anywhere, an embedded URL marker (a whitespace
character directly followed by `http://` or `https://`)?  Used to state
that a captured industry value never runs past such a marker. -/
def containsMarker : List Char → Bool
  | [] => false
  | c :: cs => (isPySpace c && urlLookahead cs) || containsMarker cs

/-- One extracted record (the dict built at scrape_build.py lines
116-122). -/
structure Entry where
  name : String
  branche : Option String
  url : Option String
  logo : Option String
  sort : String
deriving DecidableEq

/-- Python truthiness of an optional string (`None` and `""` are falsy). -/
def pyTruthy : Option String → Bool
  | none => false
  | some s => s != ""

/-- The skip set of known non-entry headings (scrape_build.py lines
55-58). -/
def SKIP_TITLES : List String :=
  ["KONTAKTIEREN SIE UNS WENN SIE UNTERSTÜTZER WERDEN WOLLEN",
   "ÜBER INITIATIVE ÖSTERREICH 2040"]

/-- Assembly and acceptance of one candidate record from its name, its
logo, and the result of the forward walk (scrape_build.py lines 101-122):
parse `branche` from the block text and keep the record only if one of
logo / branche / link is truthy. -/
def assemble (name : String) (logo : Option String) (fw : List String × Option String) :
    Option Entry :=
  if pyTruthy logo || pyTruthy (brancheOf (blockTextOf fw.1)) || pyTruthy fw.2 then
    some { name := name, branche := brancheOf (blockTextOf fw.1), url := fw.2, logo := logo,
           sort := normalize_sort_key name }
  else none

/-- Processing of one `h3` anchor (the body of the `for h in headings`
loop, scrape_build.py lines 74-122): compute the normalized name, skip
empty and known non-entry names, then resolve the logo over the reversed
pre-order prefix and run the forward walk over the pre-order suffix. -/
def candidateOf (h : Node) (before after : List Node) : Option Entry :=
  if pyStrip (replace1 nbspChar " " (getTextSpace h)) = "" then none
  else if SKIP_TITLES.contains (pyUpper (pyStrip (replace1 nbspChar " " (getTextSpace h)))) then
    none
  else
    assemble (pyStrip (replace1 nbspChar " " (getTextSpace h)))
      (find_logo_before_h3 before) (collectForward after)

/-- The candidate record of position `i` of the flattened document: `some`
exactly when an `h3` sits there and survives the name filters and the
acceptance filter. -/
def headingCandidate (flat : List Node) (i : Nat) : Option Entry :=
  match flat[i]? with
  | some h =>
    if isH3 h then candidateOf h ((flat.take i).reverse) (flat.drop (i + 1)) else none
  | none => none

/-- The `entries` list before deduplication: every `h3` of the document in
document order, filtered and processed (scrape_build.py lines 52, 74-122). -/
def candidates (doc : List Node) : List Entry :=
  (List.range (flattenForest doc).length).filterMap (headingCandidate (flattenForest doc))

/-- The dedup key `(e["name"], e["url"], e["logo"])` (scrape_build.py line
128). -/
def entryKey (e : Entry) : String × Option String × Option String :=
  (e.name, e.url, e.logo)

/-- Membership in the `seen` set. -/
def keyMem (k : String × Option String × Option String)
    (seen : List (String × Option String × Option String)) : Bool :=
  seen.any (fun s => decide (s = k))

/-- The dedup loop (scrape_build.py lines 124-131): keep an entry when its
key was not seen yet. -/
def dedupAux (seen : List (String × Option String × Option String)) :
    List Entry → List Entry
  | [] => []
  | e :: es =>
    if keyMem (entryKey e) seen then dedupAux seen es
    else e :: dedupAux (entryKey e :: seen) es

/-- Deduplication with an initially empty `seen` set. -/
def dedupEntries (l : List Entry) : List Entry :=
  dedupAux [] l

/-- Code-point lexicographic `≤` on character lists (Python string `<=`). -/
def charListLe : List Char → List Char → Bool
  | [], _ => true
  | _ :: _, [] => false
  | a :: as, b :: bs =>
    if a.toNat < b.toNat then true
    else if b.toNat < a.toNat then false
    else charListLe as bs

/-- Code-point lexicographic `<` on character lists (Python string `<`). -/
def charListLt : List Char → List Char → Bool
  | [], [] => false
  | [], _ :: _ => true
  | _ :: _, [] => false
  | a :: as, b :: bs =>
    if a.toNat < b.toNat then true
    else if b.toNat < a.toNat then false
    else charListLt as bs

/-- The sort relation of `sorted(uniq, key=lambda x: x["sort"])`: compare
the precomputed sort keys code-point-lexicographically. -/
def entryR (a b : Entry) : Prop :=
  charListLe a.sort.data b.sort.data = true

instance : DecidableRel entryR :=
  fun _ _ => inferInstanceAs (Decidable (_ = true))

instance : IsTotal Entry entryR :=
  ⟨by
    have general : ∀ x y : List Char, charListLe x y = true ∨ charListLe y x = true := by
      intro x
      induction x with
      | nil => intro y; left; rfl
      | cons a as ih =>
        intro y
        cases y with
        | nil => right; rfl
        | cons b bs =>
          rcases Nat.lt_trichotomy a.toNat b.toNat with h | h | h
          · left; simp [charListLe, h]
          · have h1 : ¬a.toNat < b.toNat := by omega
            have h2 : ¬b.toNat < a.toNat := by omega
            rcases ih bs with hle | hle
            · left; simp [charListLe, h1, h2, hle]
            · right; simp [charListLe, h1, h2, hle]
          · right; simp [charListLe, h]
    exact fun A B => general A.sort.data B.sort.data⟩

instance : IsTrans Entry entryR :=
  ⟨by
    have general : ∀ x y z : List Char,
        charListLe x y = true → charListLe y z = true → charListLe x z = true := by
      intro x
      induction x with
      | nil => intro y z _ _; rfl
      | cons a as ih =>
        intro y z hxy hyz
        cases y with
        | nil => exact absurd hxy (by simp [charListLe])
        | cons b bs =>
          cases z with
          | nil => exact absurd hyz (by simp [charListLe])
          | cons c cs =>
            simp only [charListLe] at hxy hyz ⊢
            split_ifs at hxy hyz ⊢ <;>
              first
              | rfl
              | omega
              | exact ih bs cs hxy hyz
    exact fun A B C hab hbc => general A.sort.data B.sort.data C.sort.data hab hbc⟩

/-- `sorted(…, key=lambda x: x["sort"])` (scrape_build.py line 133):
Python's sort is stable, and a stable sort by a fixed total preorder is
unique as a function, so the stable `insertionSort` computes it. -/
def sortEntries (l : List Entry) : List Entry :=
  List.insertionSort entryR l

/-- `extract_entries` (scrape_build.py lines 50-133) from the parsed tree:
per-anchor candidates, dedup, stable sort by normalized key. -/
def extract_entries (doc : List Node) : List Entry :=
  sortEntries (dedupEntries (candidates doc))

/-- Observable effects of `main` after extraction (process exit /
filesystem); the rendered file content is abstracted by the entry list it
is a deterministic function of. -/
inductive Effect where
  | makeDirs : String → Effect
  | writeFile : String → List Entry → Effect
  | exitError : String → Effect
deriving DecidableEq

def OUT_DIR : String := "dist"
def OUT_FILE : String := "dist/index.html"

/-- The effect sequence of `main` after `extract_entries` returns
(scrape_build.py lines 451-456): fewer than 10 entries raises `SystemExit`
before `ensure_dist()` and before the output file is opened; otherwise the
directory is created and the file written. -/
def mainAfterExtract (entries : List Entry) : List Effect :=
  if entries.length < 10 then
    [Effect.exitError "Extraction looks wrong – aborting."]
  else
    [Effect.makeDirs OUT_DIR, Effect.writeFile OUT_FILE entries]

/-- The sort-key normalization as the spec describes it (§4.2): trim,
lowercase, apply the four substitutions, collapse whitespace runs.  Kept
separate from `normalize_sort_key` so the refinement claim C7 can compare
the code-side and spec-side descriptions. -/
def normalizeSpec (s : String) : String :=
  collapseWs (replace1 'ß' "ss" (replace1 'ü' "ue" (replace1 'ö' "oe"
    (replace1 'ä' "ae" (pyLower (pyStrip s))))))

/-- Deduplication as the spec describes it: keep each record's first
occurrence per `(name, link, logo)` key, in original order, with all
fields intact.  Kept separate from `dedupEntries` so the refinement claim
C5 can compare the code-side and spec-side descriptions. -/
def specDedup : List Entry → List Entry
  | [] => []
  | e :: es =>
    e :: specDedup (es.filter (fun x => decide (entryKey x ≠ entryKey e)))
termination_by l => l.length
decreasing_by
  simp only [List.length_cons]
  exact Nat.lt_succ_of_le (List.length_filter_le _ _)

end Scrape

namespace Scrape

/-! ### Helper lemmas about the document-order decomposition -/

theorem flattenForest_append (l1 l2 : List Node) :
    flattenForest (l1 ++ l2) = flattenForest l1 ++ flattenForest l2 := by
  induction l1 with
  | nil => rfl
  | cons n rest ih => simp [flattenForest, ih]

theorem getElem?_append_cons {α : Type} (A : List α) (x : α) (B : List α) :
    (A ++ x :: B)[A.length]? = some x := by
  rw [List.getElem?_append_right (Nat.le_refl _)]
  simp

theorem drop_append_cons {α : Type} (A : List α) (x : α) (B : List α) :
    (A ++ x :: B).drop (A.length + 1) = B := by
  have h : A ++ x :: B = (A ++ [x]) ++ B := by simp
  have h2 : A.length + 1 = (A ++ [x]).length := by simp
  rw [h, h2, List.drop_left]

theorem headingCandidate_append (A : List Node) (x : Node) (B : List Node) :
    headingCandidate (A ++ x :: B) A.length =
      if isH3 x then candidateOf x A.reverse B else none := by
  unfold headingCandidate
  rw [getElem?_append_cons, List.take_left, drop_append_cons]

theorem collectForward_stop (mid : List Node) (h2 : Node) (post post' : List Node)
    (hmid : ∀ n ∈ mid, isH3 n = false) (hh2 : isH3 h2 = true) :
    collectForward (mid ++ h2 :: post) = collectForward (mid ++ h2 :: post') := by
  induction mid with
  | nil => simp [collectForward, hh2]
  | cons n rest ih =>
    have hn : isH3 n = false := hmid n (List.mem_cons_self _ _)
    have ih2 := ih (fun m hm => hmid m (List.mem_cons_of_mem _ hm))
    show collectForward (n :: (rest ++ h2 :: post)) =
      collectForward (n :: (rest ++ h2 :: post'))
    simp only [collectForward, hn, Bool.false_eq_true, if_false]
    exact congrArg (fun z : List String × Option String =>
      (textContrib n ++ z.1,
        match linkOf n with
        | some l => some l
        | none => z.2)) ih2

theorem candidateOf_congr_after (h : Node) (b a1 a2 : List Node)
    (hcf : collectForward a1 = collectForward a2) :
    candidateOf h b a1 = candidateOf h b a2 := by
  unfold candidateOf
  rw [hcf]

/-- C1: for every anchor, the record derived for it (name, logo, link,
collected text and hence industry) depends only on the document-order
nodes up to the next `h3`: any two documents agreeing on the prefix, the
anchor, and the region up to and including the next heading produce the
same candidate record, whatever follows that next heading. -/
theorem claim_C1 (pre : List Node) (h h2 : Node) (mid post post' : List Node)
    (hh : isH3 h = true) (hmid : ∀ n ∈ mid, isH3 n = false) (hh2 : isH3 h2 = true) :
    headingCandidate (pre ++ h :: (mid ++ h2 :: post)) pre.length =
      headingCandidate (pre ++ h :: (mid ++ h2 :: post')) pre.length := by
  rw [headingCandidate_append, headingCandidate_append, hh]
  simp only [if_true]
  exact candidateOf_congr_after _ _ _ _ (collectForward_stop mid h2 post post' hmid hh2)

/-- Witness for C1 at a concrete document: the claim's hypotheses hold and
the candidate record of the first heading is unchanged when everything
after the second heading is replaced. -/
theorem claim_C1_witness :
    isH3 (Node.elem "h3" [] [Node.text "Acme"]) = true ∧
    (∀ n ∈ [Node.text "Branche: Bau"], isH3 n = false) ∧
    isH3 (Node.elem "h3" [] [Node.text "Beta"]) = true ∧
    headingCandidate
        ([] ++ Node.elem "h3" [] [Node.text "Acme"] ::
          ([Node.text "Branche: Bau"] ++ Node.elem "h3" [] [Node.text "Beta"] ::
            [Node.text "Branche: IT", Node.elem "img" [("src", "/x.png")] []]))
        (List.length ([] : List Node)) =
      headingCandidate
        ([] ++ Node.elem "h3" [] [Node.text "Acme"] ::
          ([Node.text "Branche: Bau"] ++ Node.elem "h3" [] [Node.text "Beta"] :: []))
        (List.length ([] : List Node)) :=
  ⟨by decide, by decide, by decide,
   claim_C1 [] _ _ [Node.text "Branche: Bau"] _ [] (by decide) (by decide) (by decide)⟩

/-! ### Logo resolution (C2) -/

theorem find_logo_spec (prev : List Node) :
    find_logo_before_h3 prev =
      (List.findSome? imgSrc (prev.takeWhile (fun n => !isH3 n))).map (urljoin BASE) := by
  induction prev with
  | nil => rfl
  | cons el rest ih =>
    by_cases hel : isH3 el = true
    · simp [find_logo_before_h3, List.takeWhile_cons, hel]
    · have hel' : isH3 el = false := by
        cases hb : isH3 el
        · rfl
        · exact absurd hb hel
      cases himg : imgSrc el with
      | some s =>
        simp [find_logo_before_h3, List.takeWhile_cons, hel', himg, List.findSome?_cons]
      | none =>
        simp [find_logo_before_h3, List.takeWhile_cons, hel', himg, List.findSome?_cons, ih]

theorem takeWhile_append_stop {α : Type} (p : α → Bool) (h : α) (hph : p h = false)
    (l1 l2 : List α) : (l1 ++ h :: l2).takeWhile p = l1.takeWhile p := by
  induction l1 with
  | nil => simp [List.takeWhile_cons, hph]
  | cons c cs ih =>
    by_cases hc : p c = true
    · simp [List.takeWhile_cons, hc, ih]
    · have hc' : p c = false := by
        cases hb : p c
        · rfl
        · exact absurd hb hc
      simp [List.takeWhile_cons, hc']

/-- C2: the logo of an anchor is found by walking the reversed document
prefix (`previous_elements`), stopping at the first earlier `h3`: it is the
first truthy image `src` in the region before that heading, resolved
against the fixed base, and `none` when no such image exists; nodes lying
beyond an intervening earlier heading can never contribute. -/
theorem claim_C2 :
    (∀ prev, find_logo_before_h3 prev =
      (List.findSome? imgSrc (prev.takeWhile (fun n => !isH3 n))).map (urljoin BASE)) ∧
    (∀ (l1 : List Node) (hn : Node) (l2 : List Node), isH3 hn = true →
      find_logo_before_h3 (l1 ++ hn :: l2) = find_logo_before_h3 l1) := by
  constructor
  · exact find_logo_spec
  · intro l1 hn l2 hhn
    rw [find_logo_spec, find_logo_spec,
      takeWhile_append_stop (fun n => !isH3 n) hn (by simp [hhn])]

/-- Witness for C2: with an image lying beyond an earlier heading, the
backward walk ignores it. -/
theorem claim_C2_witness :
    isH3 (Node.elem "h3" [] []) = true ∧
    find_logo_before_h3
        ([Node.text "t"] ++ Node.elem "h3" [] [] :: [Node.elem "img" [("src", "/b.png")] []]) =
      find_logo_before_h3 [Node.text "t"] :=
  ⟨by decide, claim_C2.2 [Node.text "t"] _ [Node.elem "img" [("src", "/b.png")] []] (by decide)⟩

/-! ### Sort-key normalization (C7) -/

/-- C7: `normalize_sort_key` trims, lowercases, applies ä→ae, ö→oe, ü→ue,
ß→ss, and collapses whitespace runs, and in particular maps the spec's two
examples as stated. -/
theorem claim_C7 :
    (∀ s, normalize_sort_key s = normalizeSpec s) ∧
    normalize_sort_key "Müller GmbH" = "mueller gmbh" ∧
    normalize_sort_key "Groß & Söhne" = "gross & soehne" :=
  ⟨fun _ => rfl, by decide, by decide⟩

/-! ### Guard in `main` (C8) -/

/-- C8: with fewer than 10 extracted records, `main` raises the fatal
error and performs no directory creation and no file write; the output
file is written only when at least 10 records exist. -/
theorem claim_C8 (entries : List Entry) :
    (entries.length < 10 →
      mainAfterExtract entries = [Effect.exitError "Extraction looks wrong – aborting."]) ∧
    (∀ p es, Effect.writeFile p es ∈ mainAfterExtract entries →
      10 ≤ entries.length ∧ p = OUT_FILE ∧ es = entries) := by
  constructor
  · intro hlt
    unfold mainAfterExtract
    rw [if_pos hlt]
  · intro p es hmem
    unfold mainAfterExtract at hmem
    by_cases hlt : entries.length < 10
    · rw [if_pos hlt] at hmem
      simp at hmem
    · rw [if_neg hlt] at hmem
      simp at hmem
      exact ⟨Nat.le_of_not_lt hlt, hmem.1, hmem.2⟩

/-- Witness for C8: an empty extraction aborts; a 10-element extraction
writes the output file. -/
theorem claim_C8_witness :
    (([] : List Entry).length < 10 ∧
      mainAfterExtract [] = [Effect.exitError "Extraction looks wrong – aborting."]) ∧
    (Effect.writeFile OUT_FILE (List.replicate 10 (Entry.mk "X" none none none "x")) ∈
        mainAfterExtract (List.replicate 10 (Entry.mk "X" none none none "x")) ∧
      10 ≤ (List.replicate 10 (Entry.mk "X" none none none "x")).length) :=
  ⟨⟨by decide, (claim_C8 []).1 (by decide)⟩,
   ⟨by decide, ((claim_C8 (List.replicate 10 (Entry.mk "X" none none none "x"))).2
       OUT_FILE (List.replicate 10 (Entry.mk "X" none none none "x")) (by decide)).1⟩⟩

/-! ### The forward walk and the anchor's own content (C9) -/

/-- Counterexample to C9 as stated: with the whole document being one `h3`
whose only content is the nested text "Branche: IT", the forward walk
(which starts at the anchor's first descendant) collects that nested text,
an industry is parsed from it, and the record is accepted — whereas the
claim (anchor's own text never contributes) would force an empty block
text and an empty output. -/
theorem claim_C9_counterexample :
    extract_entries [Node.elem "h3" [] [Node.text "Branche: IT"]] =
      [⟨"Branche: IT", some "IT", none, none, "branche: it"⟩] ∧
    (collectForward
        (List.drop 1 (flattenForest [Node.elem "h3" [] [Node.text "Branche: IT"]]))).1 =
      ["Branche: IT"] := by
  constructor
  · decide
  · decide

/-- C9 (amended): the forward walk starts at the node parsed immediately
after the anchor's start tag, i.e. with the anchor's own descendants: it
excludes the anchor element node itself, but text and link elements nested
inside the heading do take part in the walk, followed by the material
after the heading's subtree. -/
theorem claim_C9_amended (pre : List Node) (attrs : List (String × String))
    (children rest : List Node) :
    headingCandidate (flattenForest (pre ++ Node.elem "h3" attrs children :: rest))
        (flattenForest pre).length =
      candidateOf (Node.elem "h3" attrs children) (flattenForest pre).reverse
        (flattenForest children ++ flattenForest rest) := by
  have hflat : flattenForest (pre ++ Node.elem "h3" attrs children :: rest) =
      flattenForest pre ++ Node.elem "h3" attrs children ::
        (flattenForest children ++ flattenForest rest) := by
    rw [flattenForest_append]
    simp [flattenForest, flattenNode]
  rw [hflat, headingCandidate_append]
  simp [isH3]

end Scrape

namespace Scrape

/-! ### Deduplication (C5) -/

theorem dedupAux_sublist :
    ∀ (l : List Entry) (seen : List (String × Option String × Option String)),
      (dedupAux seen l).Sublist l := by
  intro l
  induction l with
  | nil => intro seen; exact List.Sublist.refl _
  | cons e es ih =>
    intro seen
    by_cases hk : keyMem (entryKey e) seen = true
    · simp only [dedupAux, hk, if_true]
      exact (ih seen).cons e
    · have hk' : keyMem (entryKey e) seen = false := by
        cases hb : keyMem (entryKey e) seen
        · rfl
        · exact absurd hb hk
      simp only [dedupAux, hk', Bool.false_eq_true, if_false]
      exact (ih _).cons₂ e

theorem dedupAux_eq_spec :
    ∀ (n : Nat) (l : List Entry) (seen : List (String × Option String × Option String)),
      l.length ≤ n →
      dedupAux seen l = specDedup (l.filter (fun e => !keyMem (entryKey e) seen)) := by
  intro n
  induction n with
  | zero =>
    intro l seen hl
    have hnil : l = [] := List.eq_nil_of_length_eq_zero (Nat.le_zero.mp hl)
    subst hnil
    simp [dedupAux, specDedup]
  | succ n ih =>
    intro l seen hl
    cases l with
    | nil => simp [dedupAux, specDedup]
    | cons e es =>
      have hlen : es.length ≤ n := Nat.le_of_succ_le_succ hl
      by_cases hk : keyMem (entryKey e) seen = true
      · have hfe : (e :: es).filter (fun x => !keyMem (entryKey x) seen) =
            es.filter (fun x => !keyMem (entryKey x) seen) := by
          simp [List.filter_cons, hk]
        simp only [dedupAux, hk, if_true]
        rw [hfe, ih es seen hlen]
      · have hk' : keyMem (entryKey e) seen = false := by
          cases hb : keyMem (entryKey e) seen
          · rfl
          · exact absurd hb hk
        have hfe : (e :: es).filter (fun x => !keyMem (entryKey x) seen) =
            e :: es.filter (fun x => !keyMem (entryKey x) seen) := by
          simp [List.filter_cons, hk']
        simp only [dedupAux, hk', Bool.false_eq_true, if_false]
        rw [hfe]
        simp only [specDedup]
        congr 1
        rw [ih es (entryKey e :: seen) hlen]
        congr 1
        rw [List.filter_filter]
        apply List.filter_congr
        intro x _
        by_cases hxe : entryKey x = entryKey e
        · simp [keyMem, List.any_cons, hxe]
        · have hex : ¬entryKey e = entryKey x := fun hc => hxe hc.symm
          simp [keyMem, List.any_cons, hxe, hex]

/-- C5: deduplication keeps, per `(name, link, logo)` key, exactly the
first accepted record with all fields intact (it agrees with the
first-occurrence-wins reference function), it preserves the relative order
of survivors (the result is a sublist of its input), and two records that
differ only in the industry field collapse to the first one. -/
theorem claim_C5 :
    (∀ l, dedupEntries l = specDedup l) ∧
    (∀ l, (dedupEntries l).Sublist l) ∧
    dedupEntries
        [⟨"Acme", some "Bau", some "https://a.at", some "https://l.png", "acme"⟩,
         ⟨"Acme", some "IT", some "https://a.at", some "https://l.png", "acme"⟩] =
      [⟨"Acme", some "Bau", some "https://a.at", some "https://l.png", "acme"⟩] := by
  refine ⟨?_, ?_, by decide⟩
  · intro l
    have h := dedupAux_eq_spec l.length l [] (Nat.le_refl _)
    have hfilter : l.filter (fun e => !keyMem (entryKey e) []) = l := by
      apply List.filter_eq_self.mpr
      intro a _
      rfl
    rw [hfilter] at h
    exact h
  · intro l
    exact dedupAux_sublist l []

/-! ### The sort order (C6, C10) -/

theorem charListLe_refl : ∀ l, charListLe l l = true := by
  intro l
  induction l with
  | nil => rfl
  | cons a as ih => simp [charListLe, Nat.lt_irrefl, ih]

theorem charListLt_irrefl : ∀ x, charListLt x x = false := by
  intro x
  induction x with
  | nil => rfl
  | cons a as ih => simp [charListLt, Nat.lt_irrefl, ih]

theorem charListLt_le_false :
    ∀ x y, charListLt x y = true → charListLe y x = true → False := by
  intro x
  induction x with
  | nil =>
    intro y hlt hle
    cases y with
    | nil => exact absurd hlt (by simp [charListLt])
    | cons b bs => exact absurd hle (by simp [charListLe])
  | cons a as ih =>
    intro y hlt hle
    cases y with
    | nil => exact absurd hlt (by simp [charListLt])
    | cons b bs =>
      simp only [charListLt] at hlt
      simp only [charListLe] at hle
      split_ifs at hlt hle <;>
        first
        | omega
        | exact ih bs hlt hle

/-- C6: in the output of `extract_entries`, a record whose sort key is
code-point-lexicographically smaller than another's appears at a strictly
earlier position. -/
theorem claim_C6 (d : List Node) (i j : Nat) (A B : Entry)
    (hA : (extract_entries d)[i]? = some A) (hB : (extract_entries d)[j]? = some B)
    (hlt : charListLt A.sort.data B.sort.data = true) : i < j := by
  have hs : List.Sorted entryR (extract_entries d) :=
    List.sorted_insertionSort entryR (dedupEntries (candidates d))
  rw [List.getElem?_eq_some] at hA hB
  obtain ⟨hi, hAi⟩ := hA
  obtain ⟨hj, hBj⟩ := hB
  by_contra hij
  rcases Nat.lt_or_ge j i with hjlt | hge
  · have hp := List.pairwise_iff_getElem.mp hs j i hj hi hjlt
    rw [hBj, hAi] at hp
    exact charListLt_le_false _ _ hlt hp
  · have hij' : i = j := Nat.le_antisymm hge (Nat.le_of_not_lt hij)
    subst hij'
    have hAB : A = B := by rw [← hAi, ← hBj]
    rw [← hAB] at hlt
    rw [charListLt_irrefl] at hlt
    exact absurd hlt (by simp)

end Scrape

namespace Scrape

/-! ### Stability of the final sort (C10) -/

theorem filter_orderedInsert_pos (p : Entry → Bool) (b : Entry) (hb : p b = true)
    (hall : ∀ y, p y = true → entryR b y) :
    ∀ L, (List.orderedInsert entryR b L).filter p = b :: L.filter p := by
  intro L
  induction L with
  | nil => simp [List.orderedInsert, List.filter_cons, hb]
  | cons y L ih =>
    by_cases hby : entryR b y
    · simp [List.orderedInsert, hby, List.filter_cons, hb]
    · have hpy : p y = false := by
        cases hpyb : p y
        · rfl
        · exact absurd (hall y hpyb) hby
      simp [List.orderedInsert, hby, List.filter_cons, hpy, ih]

theorem filter_orderedInsert_neg (p : Entry → Bool) (b : Entry) (hb : p b = false) :
    ∀ L, (List.orderedInsert entryR b L).filter p = L.filter p := by
  intro L
  induction L with
  | nil => simp [List.orderedInsert, List.filter_cons, hb]
  | cons y L ih =>
    by_cases hby : entryR b y
    · simp [List.orderedInsert, hby, List.filter_cons, hb]
    · simp [List.orderedInsert, hby, List.filter_cons, ih]

theorem filter_insertionSort_key (k : String) :
    ∀ l, (List.insertionSort entryR l).filter (fun e => decide (e.sort = k)) =
      l.filter (fun e => decide (e.sort = k)) := by
  intro l
  induction l with
  | nil => rfl
  | cons b l ih =>
    show (List.orderedInsert entryR b (List.insertionSort entryR l)).filter _ = _
    by_cases hbk : b.sort = k
    · have hb : decide (b.sort = k) = true := by simp [hbk]
      have hall : ∀ y : Entry, decide (y.sort = k) = true → entryR b y := by
        intro y hy
        have hyk : y.sort = k := of_decide_eq_true hy
        unfold entryR
        rw [hbk, hyk]
        exact charListLe_refl _
      rw [filter_orderedInsert_pos _ b hb hall, ih]
      simp [List.filter_cons, hb]
    · have hb : decide (b.sort = k) = false := by simp [hbk]
      rw [filter_orderedInsert_neg _ b hb, ih]
      simp [List.filter_cons, hb]

/-- C10: the final sort of `extract_entries` is stable: for every key
value, the subsequence of output records carrying that sort key is exactly
the subsequence the deduplicated list carries, in the same order, so ties
on the normalized key are broken by first-seen extraction order. -/
theorem claim_C10 (d : List Node) (k : String) :
    (extract_entries d).filter (fun e => decide (e.sort = k)) =
      (dedupEntries (candidates d)).filter (fun e => decide (e.sort = k)) :=
  filter_insertionSort_key k (dedupEntries (candidates d))

/-! ### The acceptance filter (C4) -/

theorem assemble_some (name : String) (logo : Option String)
    (fw : List String × Option String) (e : Entry)
    (hc : assemble name logo fw = some e) :
    e.name = name ∧ (pyTruthy e.logo || pyTruthy e.branche || pyTruthy e.url) = true := by
  unfold assemble at hc
  by_cases hacc : (pyTruthy logo || pyTruthy (brancheOf (blockTextOf fw.1)) ||
      pyTruthy fw.2) = true
  · rw [if_pos hacc] at hc
    injection hc with hrec
    rw [← hrec]
    exact ⟨rfl, hacc⟩
  · rw [if_neg hacc] at hc
    exact absurd hc (by simp)

theorem candidateOf_some (h : Node) (b a : List Node) (e : Entry)
    (hc : candidateOf h b a = some e) :
    e.name ≠ "" ∧ (pyTruthy e.logo || pyTruthy e.branche || pyTruthy e.url) = true := by
  unfold candidateOf at hc
  by_cases h1 : pyStrip (replace1 nbspChar " " (getTextSpace h)) = ""
  · rw [if_pos h1] at hc
    exact absurd hc (by simp)
  · rw [if_neg h1] at hc
    by_cases h2 : SKIP_TITLES.contains
        (pyUpper (pyStrip (replace1 nbspChar " " (getTextSpace h)))) = true
    · simp only [h2, if_true] at hc
      exact absurd hc (by simp)
    · have h2' : SKIP_TITLES.contains
          (pyUpper (pyStrip (replace1 nbspChar " " (getTextSpace h)))) = false := by
        cases hb : SKIP_TITLES.contains
            (pyUpper (pyStrip (replace1 nbspChar " " (getTextSpace h))))
        · rfl
        · exact absurd hb h2
      simp only [h2', Bool.false_eq_true, if_false] at hc
      obtain ⟨hname, hdisj⟩ := assemble_some _ _ _ _ hc
      rw [hname]
      exact ⟨h1, hdisj⟩

theorem headingCandidate_some (flat : List Node) (i : Nat) (e : Entry)
    (hc : headingCandidate flat i = some e) :
    e.name ≠ "" ∧ (pyTruthy e.logo || pyTruthy e.branche || pyTruthy e.url) = true := by
  unfold headingCandidate at hc
  cases hfi : flat[i]? with
  | none => rw [hfi] at hc; exact absurd hc (by simp)
  | some h =>
    rw [hfi] at hc
    by_cases hh3 : isH3 h = true
    · simp only [hh3, if_true] at hc
      exact candidateOf_some _ _ _ _ hc
    · have hh3' : isH3 h = false := by
        cases hb : isH3 h
        · rfl
        · exact absurd hb hh3
      simp only [hh3', Bool.false_eq_true, if_false] at hc
      exact absurd hc (by simp)

/-- C4: every record in the output of `extract_entries` has a non-empty
normalized name and at least one truthy field among logo, industry and
link; a candidate heading offering none of those three is never in the
output, whatever its name. -/
theorem claim_C4 (d : List Node) (e : Entry) (hmem : e ∈ extract_entries d) :
    e.name ≠ "" ∧
      (pyTruthy e.logo = true ∨ pyTruthy e.branche = true ∨ pyTruthy e.url = true) := by
  have hperm : List.Perm (List.insertionSort entryR (dedupEntries (candidates d)))
      (dedupEntries (candidates d)) :=
    List.perm_insertionSort entryR (dedupEntries (candidates d))
  have h1 : e ∈ dedupEntries (candidates d) := hperm.mem_iff.mp hmem
  have h2 : e ∈ candidates d := (dedupAux_sublist (candidates d) []).subset h1
  unfold candidates at h2
  obtain ⟨i, _, hcand⟩ := List.mem_filterMap.mp h2
  obtain ⟨hname, hdisj⟩ := headingCandidate_some _ _ _ hcand
  refine ⟨hname, ?_⟩
  simpa [Bool.or_eq_true, or_assoc] using hdisj

/-- Witness for C4 at a concrete document: the single record produced has a
non-empty name and a truthy logo and industry. -/
theorem claim_C4_witness :
    (⟨"Acme", some "Bau", none,
        some "https://www.initiativeoesterreich2040.at/1.png", "acme"⟩ : Entry) ∈
      extract_entries
        [Node.elem "img" [("src", "/1.png")] [],
         Node.elem "h3" [] [Node.text "Acme"],
         Node.text "Branche: Bau"] ∧
    (⟨"Acme", some "Bau", none,
        some "https://www.initiativeoesterreich2040.at/1.png", "acme"⟩ : Entry).name ≠ "" ∧
    (pyTruthy (⟨"Acme", some "Bau", none,
        some "https://www.initiativeoesterreich2040.at/1.png", "acme"⟩ : Entry).logo = true ∨
      pyTruthy (⟨"Acme", some "Bau", none,
        some "https://www.initiativeoesterreich2040.at/1.png", "acme"⟩ : Entry).branche = true ∨
      pyTruthy (⟨"Acme", some "Bau", none,
        some "https://www.initiativeoesterreich2040.at/1.png", "acme"⟩ : Entry).url = true) :=
  ⟨by decide,
   (claim_C4
     [Node.elem "img" [("src", "/1.png")] [],
      Node.elem "h3" [] [Node.text "Acme"],
      Node.text "Branche: Bau"]
     ⟨"Acme", some "Bau", none,
      some "https://www.initiativeoesterreich2040.at/1.png", "acme"⟩
     (by decide)).1,
   (claim_C4
     [Node.elem "img" [("src", "/1.png")] [],
      Node.elem "h3" [] [Node.text "Acme"],
      Node.text "Branche: Bau"]
     ⟨"Acme", some "Bau", none,
      some "https://www.initiativeoesterreich2040.at/1.png", "acme"⟩
     (by decide)).2⟩

/-- Witness for C6 at a concrete document: the record with key `acme`
precedes the record with key `beta`. -/
theorem claim_C6_witness :
    (extract_entries
        [Node.elem "img" [("src", "/1.png")] [],
         Node.elem "h3" [] [Node.text "Beta"],
         Node.text "Branche: X",
         Node.elem "img" [("src", "/2.png")] [],
         Node.elem "h3" [] [Node.text "Acme"],
         Node.text "Branche: Y"])[0]? =
      some ⟨"Acme", some "Y", none,
        some "https://www.initiativeoesterreich2040.at/2.png", "acme"⟩ ∧
    (extract_entries
        [Node.elem "img" [("src", "/1.png")] [],
         Node.elem "h3" [] [Node.text "Beta"],
         Node.text "Branche: X",
         Node.elem "img" [("src", "/2.png")] [],
         Node.elem "h3" [] [Node.text "Acme"],
         Node.text "Branche: Y"])[1]? =
      some ⟨"Beta", some "X", none,
        some "https://www.initiativeoesterreich2040.at/1.png", "beta"⟩ ∧
    charListLt ("acme" : String).data ("beta" : String).data = true ∧
    (0 : Nat) < 1 :=
  ⟨by decide, by decide, by decide,
   claim_C6
     [Node.elem "img" [("src", "/1.png")] [],
      Node.elem "h3" [] [Node.text "Beta"],
      Node.text "Branche: X",
      Node.elem "img" [("src", "/2.png")] [],
      Node.elem "h3" [] [Node.text "Acme"],
      Node.text "Branche: Y"] 0 1
     ⟨"Acme", some "Y", none, some "https://www.initiativeoesterreich2040.at/2.png", "acme"⟩
     ⟨"Beta", some "X", none, some "https://www.initiativeoesterreich2040.at/1.png", "beta"⟩
     (by decide) (by decide) (by decide)⟩

end Scrape

namespace Scrape

/-! ### The industry capture (C3) -/

theorem startsWithCIChars_append (p : List Char) :
    ∀ l r, startsWithCIChars p l = true → startsWithCIChars p (l ++ r) = true := by
  induction p with
  | nil => intro l r _; rfl
  | cons pc ps ih =>
    intro l r h
    cases l with
    | nil => exact absurd h (by simp [startsWithCIChars])
    | cons c cs =>
      simp only [List.cons_append, startsWithCIChars, Bool.and_eq_true] at h ⊢
      exact ⟨h.1, ih cs r h.2⟩

theorem urlLookahead_append (l r : List Char) (h : urlLookahead l = true) :
    urlLookahead (l ++ r) = true := by
  unfold urlLookahead at h ⊢
  simp only [Bool.or_eq_true] at h ⊢
  rcases h with h | h
  · exact Or.inl (startsWithCIChars_append _ l r h)
  · exact Or.inr (startsWithCIChars_append _ l r h)

theorem captureFrom_cons_decomp (x : Char) (cs : List Char) (c : List Char)
    (h : captureFrom (x :: cs) = some c) :
    c = [x] ∧ lookaheadOk cs = true ∨
      ∃ t, captureFrom cs = some t ∧ c = x :: t ∧ lookaheadOk cs = false ∧ x ≠ '\n' := by
  unfold captureFrom at h
  by_cases hx : x = '\n'
  · rw [if_pos hx] at h
    exact absurd h (by simp)
  · rw [if_neg hx] at h
    by_cases hla : lookaheadOk cs = true
    · rw [if_pos hla] at h
      injection h with h
      exact Or.inl ⟨h.symm, hla⟩
    · have hla' : lookaheadOk cs = false := by
        cases hb : lookaheadOk cs
        · rfl
        · exact absurd hb hla
      rw [if_neg hla] at h
      cases ht : captureFrom cs with
      | none => rw [ht] at h; exact absurd h (by simp)
      | some t =>
        rw [ht] at h
        injection h with h
        exact Or.inr ⟨t, rfl, h.symm, hla', hx⟩

theorem captureFrom_decomp (l : List Char) :
    ∀ c, captureFrom l = some c → ∃ r, l = c ++ r := by
  induction l with
  | nil => intro c h; exact absurd h (by simp [captureFrom])
  | cons x cs ih =>
    intro c h
    rcases captureFrom_cons_decomp x cs c h with ⟨hc, _⟩ | ⟨t, ht, hc, _, _⟩
    · exact ⟨cs, by rw [hc]; rfl⟩
    · obtain ⟨r, hr⟩ := ih t ht
      exact ⟨r, by rw [hc, hr]; rfl⟩

theorem captureFrom_no_inner_marker (l : List Char) :
    ∀ c, captureFrom l = some c →
      ∀ c1 h0 c2, c = c1 ++ h0 :: c2 → c1 ≠ [] →
        ¬(isPySpace h0 = true ∧ urlLookahead c2 = true) := by
  induction l with
  | nil => intro c h; exact absurd h (by simp [captureFrom])
  | cons x cs ih =>
    intro c h c1 h0 c2 hsplit hne hmk
    rcases captureFrom_cons_decomp x cs c h with ⟨hc, _⟩ | ⟨t, ht, hc, hla, _⟩
    · rw [hc] at hsplit
      have hlen := congrArg List.length hsplit
      simp [List.length_append] at hlen
      cases c1 with
      | nil => exact hne rfl
      | cons y ys => simp at hlen; omega
    · rw [hc] at hsplit
      cases c1 with
      | nil => exact hne rfl
      | cons y ys =>
        simp only [List.cons_append] at hsplit
        injection hsplit with hxy hts
        cases ys with
        | nil =>
          simp only [List.nil_append] at hts
          obtain ⟨r, hr⟩ := captureFrom_decomp cs t ht
          rw [hts] at hr
          have hcs : lookaheadOk cs = true := by
            rw [hr]
            simp only [List.cons_append, lookaheadOk]
            rw [hmk.1, urlLookahead_append c2 r hmk.2]
            rfl
          rw [hcs] at hla
          exact absurd hla (by simp)
        | cons z zs =>
          exact ih t ht (z :: zs) h0 c2 hts (by simp) hmk

theorem backtrackAux_cases (sp : List Char) :
    ∀ t c, backtrackAux sp t = some c → captureFrom t = some c ∨ ∃ s, c = [s] := by
  induction sp with
  | nil => intro t c h; exact Or.inl h
  | cons s sp2 ih =>
    intro t c h
    unfold backtrackAux at h
    cases hct : captureFrom t with
    | some c0 =>
      rw [hct] at h
      injection h with h
      exact Or.inl (by rw [h])
    | none =>
      rw [hct] at h
      rcases ih (s :: t) c h with hcf | hs
      · rcases captureFrom_cons_decomp s t c hcf with ⟨hc, _⟩ | ⟨t0, ht0, _, _, _⟩
        · exact Or.inr ⟨s, hc⟩
        · rw [ht0] at hct
          exact absurd hct (by simp)
      · exact Or.inr hs

theorem dropWhile_head_not_space :
    ∀ (l : List Char) (c : Char) (cs : List Char),
      l.dropWhile isPySpace = c :: cs → isPySpace c = false := by
  intro l
  induction l with
  | nil => intro c cs h; exact absurd h (by simp)
  | cons x xs ih =>
    intro c cs h
    by_cases hx : isPySpace x = true
    · rw [List.dropWhile_cons, if_pos hx] at h
      exact ih c cs h
    · have hx' : isPySpace x = false := by
        cases hb : isPySpace x
        · rfl
        · exact absurd hb hx
      rw [List.dropWhile_cons, if_neg hx] at h
      injection h with h1 _
      rw [← h1]
      exact hx'

theorem containsMarker_decomp (l : List Char) (h : containsMarker l = true) :
    ∃ c1 h0 c2, l = c1 ++ h0 :: c2 ∧ isPySpace h0 = true ∧ urlLookahead c2 = true := by
  induction l with
  | nil => exact absurd h (by simp [containsMarker])
  | cons c cs ih =>
    simp only [containsMarker, Bool.or_eq_true, Bool.and_eq_true] at h
    rcases h with ⟨h1, h2⟩ | h
    · exact ⟨[], c, cs, rfl, h1, h2⟩
    · obtain ⟨c1, h0, c2, hsplit, hm1, hm2⟩ := ih h
      exact ⟨c :: c1, h0, c2, by rw [hsplit]; rfl, hm1, hm2⟩

theorem afterLabel_marker_free (l c : List Char) (h : afterLabel l = some c) :
    containsMarker c = false := by
  unfold afterLabel at h
  split at h
  case _ l2 heq =>
    rcases backtrackAux_cases _ _ _ h with hcf | ⟨s, hs⟩
    · by_contra hcm
      have hcm' : containsMarker c = true := by
        revert hcm
        cases containsMarker c <;> simp
      obtain ⟨c1, h0, c2, hsplit, hm1, hm2⟩ := containsMarker_decomp c hcm'
      cases c1 with
      | nil =>
        simp only [List.nil_append] at hsplit
        cases hdw2 : l2.dropWhile isPySpace with
        | nil =>
          rw [hdw2] at hcf
          exact absurd hcf (by simp [captureFrom])
        | cons d ds =>
          rw [hdw2] at hcf
          have hd : isPySpace d = false := dropWhile_head_not_space l2 d ds hdw2
          rcases captureFrom_cons_decomp d ds c hcf with ⟨hc, _⟩ | ⟨t, _, hc, _, _⟩
          · rw [hc] at hsplit
            injection hsplit with hd0 hc2
            rw [← hc2] at hm2
            exact absurd hm2 (by decide)
          · rw [hc] at hsplit
            injection hsplit with hd0 _
            rw [hd0] at hd
            rw [hm1] at hd
            exact absurd hd (by simp)
      | cons y ys =>
        exact captureFrom_no_inner_marker _ _ hcf (y :: ys) h0 c2 hsplit (by simp) ⟨hm1, hm2⟩
    · rw [hs]
      have hu : urlLookahead [] = false := by decide
      simp [containsMarker, hu]
  case _ => exact absurd h (by simp)

theorem brancheSearch_marker_free :
    ∀ (l : List Char) (prev : Option Char) (c : List Char),
      brancheSearch prev l = some c → containsMarker c = false := by
  intro l
  induction l with
  | nil => intro prev c h; exact absurd h (by simp [brancheSearch])
  | cons x cs ih =>
    intro prev c h
    unfold brancheSearch at h
    split at h
    · split at h
      case _ cap heq =>
        injection h with h
        rw [← h]
        exact afterLabel_marker_free _ _ heq
      case _ => exact ih _ _ h
    · exact ih _ _ h

/-- C3: whenever a record's industry field is present, it is the trimmed,
non-empty form of the value captured by the case-insensitive
label-colon-value search, and the captured value never contains (so never
runs past) an embedded URL marker `' http://'` / `' https://'`; the
concrete cases check the label match, the truncation at the first embedded
URL marker, the case-insensitivity, the end-of-string termination, the
empty capture counting as absent, and the word-boundary condition. -/
theorem claim_C3 :
    (∀ (bt t : String), brancheOf bt = some t →
      ∃ cap : List Char, brancheSearch none bt.data = some cap ∧
        t = pyStrip (String.mk cap) ∧ t ≠ "" ∧ containsMarker cap = false) ∧
    brancheOf "Branche: Bau" = some "Bau" ∧
    brancheOf "BRANCHE : IT und Software http://x.at mehr" = some "IT und Software" ∧
    brancheOf "Branche: A  https://b.c d" = some "A" ∧
    brancheOf "Branche:" = none ∧
    brancheOf "Firmenbranche: Bau" = none := by
  refine ⟨?_, by decide, by decide, by decide, by decide, by decide⟩
  intro bt t h
  cases hbs : brancheSearch none bt.data with
  | none =>
    simp only [brancheOf, hbs] at h
    exact absurd h (by simp)
  | some cap =>
    simp only [brancheOf, hbs] at h
    by_cases hts : pyStrip (String.mk cap) = ""
    · rw [if_pos hts] at h
      exact absurd h (by simp)
    · rw [if_neg hts] at h
      injection h with h
      refine ⟨cap, rfl, h.symm, ?_, brancheSearch_marker_free _ _ _ hbs⟩
      rw [← h]
      exact hts

/-- Witness for C3 at a concrete block text. -/
theorem claim_C3_witness :
    brancheOf "Branche: Bau" = some "Bau" ∧
    (∃ cap : List Char, brancheSearch none ("Branche: Bau" : String).data = some cap ∧
      ("Bau" : String) = pyStrip (String.mk cap) ∧ ("Bau" : String) ≠ "" ∧
      containsMarker cap = false) :=
  ⟨by decide, claim_C3.1 "Branche: Bau" "Bau" (by decide)⟩

end Scrape
